import Mathlib

/-!
Verification of the OpenFBX geometry-construction core (`ofbxImp.h` /
`ofbxImp.cpp`) against its specification.

The development shallowly embeds the code:

* `triangulate` embeds `GeometryImpl::triangulate` (fan triangulation of the
  sign-terminated polygon stream, with in-place decoding of terminal entries).
* `expand` embeds the templated vertex expansion engine, `mkVertexData` the
  `VertexData` signature constructor, `remapForRendering` the attribute remap.
* `generateIndices` embeds the default index generator (assertion failures are
  modelled as `none`).
* `parseBinaryArrayRaw` / `parseBinaryArray` embed the typed binary array
  decoder.  Byte buffers are `List Nat` (each entry one `u8`), 32-bit headers
  are read little-endian, and the C++ narrowing conversions to `int` /
  unsigned 32-bit arithmetic are made explicit (`toInt32`, `% 2^32`).
* `parseGeometryForRendering` embeds the assembly orchestration over already
  decoded arrays (attribute values are opaque tokens; the byte decoding layer
  is verified separately through `parseBinaryArray`).
-/

/-! ## Polygon triangulator (`GeometryImpl::triangulate`, ofbxImp.h lines 285-320) -/

/-- Sign decoding of one stream entry: a negative entry `e` encodes the real
index `-e - 1` (the `getIdx` lambda in `triangulate`). -/
def getIdx (e : Int) : Int := if e < 0 then -e - 1 else e

/-- State of the triangulation loop: the (mutated) input stream `old`, the
emitted corner stream `indices`, the back-map `to_old`, and the in-polygon
counter. -/
structure TriState where
  old : List Int
  indices : List Int
  to_old : List Nat
  in_poly : Nat
deriving DecidableEq

/-- One iteration of the loop body of `GeometryImpl::triangulate` at stream
position `i`. -/
def triStep (s : TriState) (i : Nat) : TriState :=
  let e := s.old.getD i 0
  let idx := getIdx e
  let s1 :=
    if s.in_poly ≤ 2 then
      { s with indices := s.indices ++ [idx], to_old := s.to_old ++ [i] }
    else
      { s with
        indices := s.indices ++ [s.old.getD (i - s.in_poly) 0, s.old.getD (i - 1) 0, idx],
        to_old := s.to_old ++ [i - s.in_poly, i - 1, i] }
  let s2 := { s1 with in_poly := s1.in_poly + 1 }
  if e < 0 then { s2 with old := s2.old.set i idx, in_poly := 0 } else s2

/-- `GeometryImpl::triangulate`: iterate `triStep` over the whole stream,
starting from empty outputs. -/
def triangulate (old_indices : List Int) : TriState :=
  (List.range old_indices.length).foldl triStep
    { old := old_indices, indices := [], to_old := [], in_poly := 0 }

/-! ## Reference shapes for the emitted corner stream -/

/-- Corners emitted for the fan part of a polygon (corners four onward):
each remaining corner `c` yields the triangle `(c0, prev, c)`. -/
def fanFlat {α : Type} (c0 prev : α) : List α → List α
  | [] => []
  | c :: rest => c0 :: prev :: c :: fanFlat c0 c rest

/-- Corners emitted for one whole polygon: the first three corners verbatim,
then the fan anchored at the first corner.  A polygon with fewer than three
corners is emitted verbatim. -/
def polyFlat {α : Type} : List α → List α
  | c0 :: c1 :: c2 :: rest => c0 :: c1 :: c2 :: fanFlat c0 c2 rest
  | l => l

/-- Corners emitted when the triangulation loop processes a corner list
starting with in-polygon counter `k`, where `c0` and `prev` are the values the
fan branch would read for the polygon's first and previous corner. -/
def emitFrom {α : Type} (k : Nat) (c0 prev : α) : List α → List α
  | [] => []
  | c :: rest =>
    if k ≤ 2 then c :: emitFrom (k + 1) (if k = 0 then c else c0) c rest
    else c0 :: prev :: c :: emitFrom (k + 1) c0 c rest

/-- Encoding of one polygon for the stream: the final corner is stored as its
bitwise complement `-c - 1`. -/
def encodePoly (p : List Int) : List Int :=
  match p.getLast? with
  | none => []
  | some c => p.dropLast ++ [-c - 1]

/-- A polygon stream: the concatenation of the encoded polygons. -/
def encodeStream (polys : List (List Int)) : List Int :=
  (polys.map encodePoly).flatten

/-- Expected back-map `to_old` contents for a polygon stream laid out from
stream position `base`. -/
def streamPositions (base : Nat) : List (List Int) → List Nat
  | [] => []
  | p :: rest => polyFlat (List.range' base p.length) ++ streamPositions (base + p.length) rest

/-! ### Basic lemmas -/

theorem getIdx_nonneg (e : Int) : 0 ≤ getIdx e := by
  unfold getIdx; split <;> omega

theorem getIdx_of_nonneg {e : Int} (h : 0 ≤ e) : getIdx e = e := by
  unfold getIdx; split <;> omega

theorem range'_split (s m n : Nat) :
    List.range' s (m + n) = List.range' s m ++ List.range' (s + m) n := by
  have h := List.range'_append s m n 1
  rw [one_mul] at h
  rw [Nat.add_comm m n, ← h]

theorem encodePoly_concat (body : List Int) (last : Int) :
    encodePoly (body ++ [last]) = body ++ [-last - 1] := by
  unfold encodePoly
  rw [List.getLast?_concat, List.dropLast_concat]

theorem getD_set_self {α : Type} (l : List α) (i : Nat) (v d : α) (h : i < l.length) :
    (l.set i v).getD i d = v := by
  simp [List.getD_eq_getElem?_getD, List.getElem?_set_self, h]

theorem getD_set_ne {α : Type} (l : List α) {i j : Nat} (v d : α) (h : i ≠ j) :
    (l.set i v).getD j d = l.getD j d := by
  simp [List.getD_eq_getElem?_getD, List.getElem?_set_ne h]

/-- Unfolding of `triStep` at a non-terminal (non-negative) stream entry. -/
theorem triStep_nonneg (s : TriState) (i : Nat) (h : 0 ≤ s.old.getD i 0) :
    triStep s i =
      { s with
        indices := s.indices ++ (if s.in_poly ≤ 2 then [s.old.getD i 0]
          else [s.old.getD (i - s.in_poly) 0, s.old.getD (i - 1) 0, s.old.getD i 0]),
        to_old := s.to_old ++ (if s.in_poly ≤ 2 then [i] else [i - s.in_poly, i - 1, i]),
        in_poly := s.in_poly + 1 } := by
  have hnn : ¬ s.old.getD i 0 < 0 := by omega
  simp only [triStep]
  rw [getIdx_of_nonneg h, if_neg hnn]
  by_cases h2 : s.in_poly ≤ 2 <;> simp [h2]

/-- Unfolding of `triStep` at a terminal (negative) stream entry. -/
theorem triStep_neg (s : TriState) (i : Nat) (h : s.old.getD i 0 < 0) :
    triStep s i =
      { old := s.old.set i (-(s.old.getD i 0) - 1),
        indices := s.indices ++ (if s.in_poly ≤ 2 then [-(s.old.getD i 0) - 1]
          else [s.old.getD (i - s.in_poly) 0, s.old.getD (i - 1) 0, -(s.old.getD i 0) - 1]),
        to_old := s.to_old ++ (if s.in_poly ≤ 2 then [i] else [i - s.in_poly, i - 1, i]),
        in_poly := 0 } := by
  have hid : getIdx (s.old.getD i 0) = -(s.old.getD i 0) - 1 := by
    unfold getIdx; split <;> omega
  simp only [triStep]
  rw [hid, if_pos h]
  by_cases h2 : s.in_poly ≤ 2 <;> simp [h2]

/-! ### The loop over one polygon -/

theorem run_poly_aux (rem : List Int) : ∀ (s : TriState) (i k : Nat) (c0 prev last : Int),
    s.in_poly = k → k ≤ i →
    (∀ j, j < rem.length → s.old.getD (i + j) 0 = rem.getD j 0 ∧ 0 ≤ rem.getD j 0) →
    s.old.getD (i + rem.length) 0 = -last - 1 →
    0 ≤ last →
    (1 ≤ k → s.old.getD (i - k) 0 = c0 ∧ s.old.getD (i - 1) 0 = prev) →
    List.foldl triStep s (List.range' i (rem.length + 1)) =
      { old := s.old.set (i + rem.length) last,
        indices := s.indices ++ emitFrom k c0 prev (rem ++ [last]),
        to_old := s.to_old ++ emitFrom k (i - k) (i - 1) (List.range' i (rem.length + 1)),
        in_poly := 0 } := by
  induction rem with
  | nil =>
    intro s i k c0 prev last hk hki hvals hterm hlast hc0
    have he : s.old.getD i 0 = -last - 1 := by simpa using hterm
    have hneg : s.old.getD i 0 < 0 := by omega
    simp only [List.length_nil, Nat.zero_add, List.range'_one, List.foldl_cons, List.foldl_nil,
      List.nil_append, Nat.add_zero]
    rw [triStep_neg s i hneg]
    have hval : -(s.old.getD i 0) - 1 = last := by omega
    simp only [TriState.mk.injEq, hk, hval, he]
    by_cases h2 : k ≤ 2
    · simp [h2, emitFrom]
    · have h1 : 1 ≤ k := by omega
      obtain ⟨hco, hpr⟩ := hc0 h1
      rw [List.getD_eq_getElem?_getD] at hco hpr
      simp [h2, emitFrom, hco, hpr]
  | cons c rest ih =>
    intro s i k c0 prev last hk hki hvals hterm hlast hc0
    have hc : s.old.getD i 0 = c ∧ 0 ≤ c := by
      have := hvals 0 (by simp)
      simpa using this
    have hlen : (c :: rest).length + 1 = (rest.length + 1) + 1 := by simp
    rw [hlen, List.range'_succ, List.foldl_cons]
    rw [triStep_nonneg s i (by omega)]
    rw [hk, hc.1]
    set s1 : TriState :=
      { s with
        indices := s.indices ++ (if k ≤ 2 then [c] else [s.old.getD (i - k) 0, s.old.getD (i - 1) 0, c]),
        to_old := s.to_old ++ (if k ≤ 2 then [i] else [i - k, i - 1, i]),
        in_poly := k + 1 } with hs1
    have hrec := ih s1 (i + 1) (k + 1) (if k = 0 then c else c0) c last
      (by simp [hs1]) (by omega)
      (by
        intro j hj
        have := hvals (j + 1) (by simpa using Nat.succ_lt_succ hj)
        simpa [hs1, Nat.add_comm, Nat.add_assoc, Nat.add_left_comm] using this)
      (by
        have harr : i + 1 + rest.length = i + (c :: rest).length := by
          simp [Nat.add_comm, Nat.add_assoc, Nat.add_left_comm]
        show s1.old.getD (i + 1 + rest.length) 0 = -last - 1
        rw [hs1, harr]; exact hterm)
      hlast
      (by
        intro _
        refine ⟨?_, by simpa [hs1] using hc.1⟩
        rcases Nat.eq_zero_or_pos k with hk0 | hk1
        · subst hk0; simpa [hs1] using hc.1
        · have := (hc0 hk1).1
          simp only [hs1, if_neg (by omega : ¬ k = 0)]
          have harith : i + 1 - (k + 1) = i - k := by omega
          rw [harith]; exact this)
    rw [hrec]
    simp only [TriState.mk.injEq, hs1]
    refine ⟨?_, ?_, ?_, trivial⟩
    · have harr : i + 1 + rest.length = i + (rest.length + 1) := by omega
      rw [harr]
      simp
    · -- indices field
      rw [List.append_assoc]
      congr 1
      by_cases h2 : k ≤ 2
      · simp [h2, emitFrom]
      · have h1 : 1 ≤ k := by omega
        obtain ⟨hco, hpr⟩ := hc0 h1
        rw [List.getD_eq_getElem?_getD] at hco hpr
        have hk0 : ¬ k = 0 := by omega
        simp [h2, hk0, emitFrom, hco, hpr]
    · -- to_old field
      rw [List.append_assoc]
      congr 1
      have harith : i + 1 - (k + 1) = i - k := by omega
      have harith2 : i + 1 - 1 = i := by omega
      rw [harith, harith2, List.range'_succ]
      by_cases h2 : k ≤ 2
      · rcases Nat.eq_zero_or_pos k with hk0 | hk1
        · subst hk0; simp [emitFrom]
        · simp [h2, emitFrom, if_neg (by omega : ¬ k = 0)]
      · have hk0 : ¬ k = 0 := by omega
        simp [h2, hk0, emitFrom]

/-! ### From `emitFrom` to the per-polygon fan shape -/

theorem emitFrom_ge_three {α : Type} (l : List α) : ∀ (k : Nat) (c0 prev : α), 3 ≤ k →
    emitFrom k c0 prev l = fanFlat c0 prev l := by
  induction l with
  | nil => intro k c0 prev hk; simp [emitFrom, fanFlat]
  | cons c rest ih =>
    intro k c0 prev hk
    have h2 : ¬ k ≤ 2 := by omega
    have hk0 : ¬ k = 0 := by omega
    simp only [emitFrom, fanFlat, if_neg h2]
    rw [ih (k + 1) c0 c (by omega)]

theorem emitFrom_zero {α : Type} (l : List α) (c0 prev : α) :
    emitFrom 0 c0 prev l = polyFlat l := by
  match l with
  | [] => simp [emitFrom, polyFlat]
  | [a] => simp [emitFrom, polyFlat]
  | [a, b] => simp [emitFrom, polyFlat]
  | a :: b :: c :: rest =>
    show emitFrom 0 c0 prev (a :: b :: c :: rest) = a :: b :: c :: fanFlat a c rest
    have h3 := emitFrom_ge_three rest 3 a c (by omega)
    simp [emitFrom, h3]

theorem fanFlat_length {α : Type} (c0 prev : α) (l : List α) :
    (fanFlat c0 prev l).length = 3 * l.length := by
  induction l generalizing prev with
  | nil => simp [fanFlat]
  | cons c rest ih => simp [fanFlat, ih]; omega

theorem polyFlat_length_of_three_le {α : Type} (p : List α) (h : 3 ≤ p.length) :
    (polyFlat p).length = 3 * (p.length - 2) := by
  match p, h with
  | a :: b :: c :: rest, _ =>
    show (a :: b :: c :: fanFlat a c rest).length = 3 * ((a :: b :: c :: rest).length - 2)
    simp [fanFlat_length]
    omega

/-! ### The loop over a whole polygon stream -/

theorem run_stream (polys : List (List Int)) : ∀ (s : TriState) (base : Nat),
    s.in_poly = 0 →
    (∀ p ∈ polys, p ≠ []) →
    (∀ p ∈ polys, ∀ c ∈ p, 0 ≤ c) →
    (∀ j, j < (encodeStream polys).length →
        s.old.getD (base + j) 0 = (encodeStream polys).getD j 0) →
    base + (encodeStream polys).length ≤ s.old.length →
    (List.foldl triStep s (List.range' base (encodeStream polys).length)).indices
        = s.indices ++ (polys.map polyFlat).flatten ∧
    (List.foldl triStep s (List.range' base (encodeStream polys).length)).to_old
        = s.to_old ++ streamPositions base polys ∧
    (List.foldl triStep s (List.range' base (encodeStream polys).length)).in_poly = 0 ∧
    (List.foldl triStep s (List.range' base (encodeStream polys).length)).old.length
        = s.old.length ∧
    (∀ j, j < (encodeStream polys).length →
        (List.foldl triStep s (List.range' base (encodeStream polys).length)).old.getD (base + j) 0
          = polys.flatten.getD j 0) ∧
    (∀ pos, pos < base ∨ base + (encodeStream polys).length ≤ pos →
        (List.foldl triStep s (List.range' base (encodeStream polys).length)).old.getD pos 0
          = s.old.getD pos 0) := by
  induction polys with
  | nil =>
    intro s base hk h1 h2 hvals hsz
    simp [encodeStream, streamPositions, hk]
  | cons p rest ih =>
    intro s base hk h1 h2 hvals hsz
    obtain ⟨body, last, rfl⟩ : ∃ body last, p = body ++ [last] := by
      rcases List.eq_nil_or_concat p with hnil | ⟨L, b, hc⟩
      · exact absurd hnil (h1 p (by simp))
      · exact ⟨L, b, by simpa [List.concat_eq_append] using hc⟩
    have henc : encodeStream ((body ++ [last]) :: rest)
        = (body ++ [-last - 1]) ++ encodeStream rest := by
      simp [encodeStream, encodePoly_concat]
    have hlenp : (body ++ [-last - 1]).length = body.length + 1 := by simp
    have hlenc : (encodeStream ((body ++ [last]) :: rest)).length
        = (body.length + 1) + (encodeStream rest).length := by
      rw [henc]; simp only [List.length_append, List.length_cons, List.length_nil]
    rw [hlenc, range'_split, List.foldl_append]
    -- run the first polygon
    have hbody : ∀ j, j < body.length →
        s.old.getD (base + j) 0 = body.getD j 0 ∧ 0 ≤ body.getD j 0 := by
      intro j hj
      have hv := hvals j (by rw [hlenc]; omega)
      rw [henc] at hv
      rw [List.getD_append _ _ _ j (by simp; omega),
        List.getD_append _ _ _ j (by omega)] at hv
      refine ⟨hv, ?_⟩
      have hmem : body.getD j 0 ∈ body := by
        rw [List.getD_eq_getElem _ _ hj]
        exact List.getElem_mem hj
      exact h2 (body ++ [last]) (by simp) _ (List.mem_append_left _ hmem)
    have hterm : s.old.getD (base + body.length) 0 = -last - 1 := by
      have hv := hvals body.length (by rw [hlenc]; omega)
      rw [henc] at hv
      rw [List.getD_append _ _ _ body.length (by simp)] at hv
      rw [List.getD_append_right _ _ _ body.length (by omega)] at hv
      simpa using hv
    have hlast : 0 ≤ last := h2 (body ++ [last]) (by simp) last (by simp)
    have hpoly := run_poly_aux body s base 0 0 0 last hk (by omega) hbody hterm hlast
      (by omega)
    rw [hpoly]
    set s1 : TriState :=
      { old := s.old.set (base + body.length) last,
        indices := s.indices ++ emitFrom 0 0 0 (body ++ [last]),
        to_old := s.to_old ++ emitFrom 0 (base - 0) (base - 1) (List.range' base (body.length + 1)),
        in_poly := 0 } with hs1
    -- run the remaining polygons from base + (body.length + 1)
    have hrest := ih s1 (base + (body.length + 1)) (by simp [hs1])
      (fun q hq => h1 q (by simp [hq]))
      (fun q hq => h2 q (by simp [hq]))
      (by
        intro j hj
        have hne : base + body.length ≠ base + (body.length + 1) + j := by omega
        simp only [hs1]
        rw [getD_set_ne _ _ _ hne]
        have hv := hvals ((body.length + 1) + j) (by rw [hlenc]; omega)
        rw [henc] at hv
        rw [List.getD_append_right _ _ _ _ (by rw [hlenp]; omega)] at hv
        have harr : base + ((body.length + 1) + j) = base + (body.length + 1) + j := by omega
        have harr2 : (body.length + 1) + j - (body ++ [-last - 1]).length = j := by
          rw [hlenp]; omega
        rw [harr] at hv
        rw [harr2] at hv
        exact hv)
      (by simp only [hs1, List.length_set]; omega)
    obtain ⟨hi1, hi2, hi3, hi4, hi5, hi6⟩ := hrest
    refine ⟨?_, ?_, hi3, ?_, ?_, ?_⟩
    · rw [hi1]
      simp only [hs1]
      rw [emitFrom_zero, List.append_assoc]
      simp
    · rw [hi2]
      simp only [hs1]
      rw [emitFrom_zero, List.append_assoc]
      have : base - 0 = base := by omega
      simp [streamPositions, this]
    · rw [hi4]; simp [hs1]
    · -- decoded corner values
      intro j hj
      have hflat : ((body ++ [last]) :: rest).flatten
          = (body ++ [last]) ++ rest.flatten := by simp
      by_cases hjp : j < body.length + 1
      · -- inside the first polygon
        have hout := hi6 (base + j) (by left; omega)
        rw [hout]
        simp only [hs1]
        rw [hflat, List.getD_append _ _ _ j
          (by simp only [List.length_append, List.length_cons, List.length_nil]; omega)]
        by_cases hjb : j < body.length
        · have hne : base + body.length ≠ base + j := by omega
          rw [getD_set_ne _ _ _ hne]
          rw [List.getD_append _ _ _ j (by omega)]
          exact (hbody j hjb).1
        · have hje : j = body.length := by omega
          subst hje
          rw [getD_set_self _ _ _ _ (by omega)]
          rw [List.getD_append_right _ _ _ _ (by omega)]
          simp
      · -- inside the remaining polygons
        have hj' : j - (body.length + 1) < (encodeStream rest).length := by omega
        have hv := hi5 (j - (body.length + 1)) hj'
        have harr : base + (body.length + 1) + (j - (body.length + 1)) = base + j := by omega
        rw [harr] at hv
        rw [hv, hflat]
        rw [List.getD_append_right _ _ _ _
          (by simp only [List.length_append, List.length_cons, List.length_nil]; omega)]
        have hidx2 : j - (body ++ [last]).length = j - (body.length + 1) := by
          simp only [List.length_append, List.length_cons, List.length_nil]
        rw [hidx2]
    · intro pos hpos
      have h6 := hi6 pos (by omega)
      rw [h6]
      simp only [hs1]
      have hne : base + body.length ≠ pos := by rcases hpos with h | h <;> omega
      rw [getD_set_ne _ _ _ hne]

/-! ### Fold invariance helper -/

theorem foldl_inv {β : Type} (f : β → Nat → β) (P : Nat → β → Prop) :
    ∀ (n a : Nat) (st : β), P a st →
    (∀ i st2, a ≤ i → i < a + n → P i st2 → P (i + 1) (f st2 i)) →
    P (a + n) (List.foldl f st (List.range' a n)) := by
  intro n
  induction n with
  | zero => intro a st h _; simpa using h
  | succ m ih =>
    intro a st h hstep
    rw [List.range'_succ, List.foldl_cons]
    have h1 := hstep a st (le_refl a) (by omega) h
    have h2 := ih (a + 1) (f st a) h1 (fun i st2 hi1 hi2 hp => hstep i st2 (by omega) (by omega) hp)
    have harr : a + 1 + m = a + (m + 1) := by omega
    rwa [harr] at h2

/-! ### The stream is decoded in place -/

theorem triangulate_old_decoded (l : List Int) :
    (triangulate l).old = l.map getIdx := by
  have hinv := foldl_inv triStep
    (fun i st => st.old.length = l.length ∧
      (∀ j, j < i → st.old.getD j 0 = getIdx (l.getD j 0)) ∧
      (∀ j, i ≤ j → st.old.getD j 0 = l.getD j 0))
    l.length 0 { old := l, indices := [], to_old := [], in_poly := 0 }
    (by exact ⟨rfl, fun j hj => absurd hj (by omega), fun j _ => rfl⟩)
    (by
      intro i st2 hi0 hin hp
      obtain ⟨hlen, hdone, htodo⟩ := hp
      by_cases hneg : st2.old.getD i 0 < 0
      · rw [triStep_neg st2 i hneg]
        refine ⟨by simpa using hlen, ?_, ?_⟩
        · intro j hj
          rcases Nat.lt_or_ge j i with hji | hji
          · rw [getD_set_ne _ _ _ (by omega)]
            exact hdone j hji
          · have hje : j = i := by omega
            subst hje
            rw [getD_set_self _ _ _ _ (by omega)]
            have := htodo j (le_refl j)
            rw [this] at hneg ⊢
            unfold getIdx
            rw [if_pos hneg]
        · intro j hj
          rw [getD_set_ne _ _ _ (by omega)]
          exact htodo j (by omega)
      · rw [triStep_nonneg st2 i (by omega)]
        refine ⟨hlen, ?_, fun j hj => htodo j (by omega)⟩
        intro j hj
        rcases Nat.lt_or_ge j i with hji | hji
        · exact hdone j hji
        · have hje : j = i := by omega
          subst hje
          have h0 := htodo j (le_refl j)
          rw [h0] at hneg ⊢
          rw [getIdx_of_nonneg (by omega)]
    )
  unfold triangulate
  rw [List.range_eq_range']
  obtain ⟨hlen, hdone, _⟩ := hinv
  apply List.ext_getElem (by simpa using hlen)
  intro n h1 h2
  have hn : n < l.length := by simpa using h2
  have := hdone n (by omega)
  rw [List.getD_eq_getElem _ _ h1, List.getD_eq_getElem _ _ hn] at this
  simpa using this

/-! ### Naturality of the fan shape and decode of the encoded stream -/

theorem fanFlat_map {α β : Type} (f : α → β) (c0 prev : α) (l : List α) :
    fanFlat (f c0) (f prev) (l.map f) = (fanFlat c0 prev l).map f := by
  induction l generalizing prev with
  | nil => simp [fanFlat]
  | cons c rest ih => simp [fanFlat, ih]

theorem polyFlat_map {α β : Type} (f : α → β) (l : List α) :
    polyFlat (l.map f) = (polyFlat l).map f := by
  match l with
  | [] => simp [polyFlat]
  | [a] => simp [polyFlat]
  | [a, b] => simp [polyFlat]
  | a :: b :: c :: rest =>
    show polyFlat (f a :: f b :: f c :: rest.map f)
        = (polyFlat (a :: b :: c :: rest)).map f
    simp only [polyFlat]
    rw [fanFlat_map]
    simp

theorem encodePoly_decode (p : List Int) (hnn : ∀ c ∈ p, 0 ≤ c) :
    ∀ t, t < p.length → getIdx ((encodePoly p).getD t 0) = p.getD t 0 := by
  rcases List.eq_nil_or_concat p with rfl | ⟨body, last, rfl⟩
  · intro t ht; simp at ht
  · rw [List.concat_eq_append] at hnn ⊢
    intro t ht
    rw [encodePoly_concat]
    rcases Nat.lt_or_ge t body.length with htb | htb
    · rw [List.getD_append _ _ _ t htb, List.getD_append _ _ _ t htb]
      apply getIdx_of_nonneg
      apply hnn
      apply List.mem_append_left
      rw [List.getD_eq_getElem _ _ htb]
      exact List.getElem_mem htb
    · have hte : t = body.length := by
        simp only [List.length_append, List.length_cons, List.length_nil] at ht
        omega
      subst hte
      rw [List.getD_append_right _ _ _ _ (le_refl _), List.getD_append_right _ _ _ _ (le_refl _)]
      simp only [Nat.sub_self, List.getD_cons_zero]
      have hl : 0 ≤ last := hnn last (List.mem_append_right _ (by simp))
      unfold getIdx
      rw [if_pos (by omega)]
      omega

theorem encodePoly_length (p : List Int) : (encodePoly p).length = p.length := by
  rcases List.eq_nil_or_concat p with rfl | ⟨body, last, rfl⟩
  · simp [encodePoly]
  · rw [List.concat_eq_append, encodePoly_concat]; simp

theorem streamPositions_decode (polys : List (List Int)) :
    (∀ p ∈ polys, ∀ c ∈ p, 0 ≤ c) →
    ∀ (base : Nat) (stream : List Int),
    (∀ t, t < (encodeStream polys).length →
        stream.getD (base + t) 0 = (encodeStream polys).getD t 0) →
    (polys.map polyFlat).flatten
      = (streamPositions base polys).map (fun pos => getIdx (stream.getD pos 0)) := by
  induction polys with
  | nil => intro _ base stream _; simp [streamPositions]
  | cons p rest ih =>
    intro h2 base stream hvals
    have henc : encodeStream (p :: rest) = encodePoly p ++ encodeStream rest := by
      simp [encodeStream]
    have hlenp := encodePoly_length p
    simp only [List.map_cons, List.flatten_cons, streamPositions, List.map_append]
    congr 1
    · -- current polygon: polyFlat p = map decode (polyFlat (range' base n))
      rw [← polyFlat_map]
      congr 1
      apply List.ext_getElem (by simp)
      intro t h1' h2'
      have htn : t < p.length := by simpa using h2'
      rw [List.getElem_map, List.getElem_range']
      simp only [one_mul]
      have hv := hvals t (by rw [henc]; simp only [List.length_append]; omega)
      rw [henc, List.getD_append _ _ _ t (by omega)] at hv
      rw [hv]
      rw [encodePoly_decode p (h2 p (by simp)) t htn]
      rw [List.getD_eq_getElem _ _ htn]
    · -- remaining polygons
      apply ih (fun q hq => h2 q (by simp [hq])) (base + p.length)
      intro t ht
      have hv := hvals (p.length + t) (by rw [henc]; simp only [List.length_append]; omega)
      rw [henc, List.getD_append_right _ _ _ _ (by omega)] at hv
      have harr : base + (p.length + t) = base + p.length + t := by omega
      have harr2 : p.length + t - (encodePoly p).length = t := by omega
      rw [harr, harr2] at hv
      exact hv

/-! ## Claims C3 and C4 -/

/-- C3: For every well-formed polygon stream, the triangulator emits, for each
polygon, its first three decoded corners followed by a fan anchored at the
first corner: the emitted corner stream is exactly `polyFlat` of each decoded
polygon, the back-map `to_old` holds the original stream positions in the same
fan shape, and each emitted corner equals the decoded stream entry at its
`to_old` position.  `polyFlat` yields `3 * (n - 2)` corners, i.e. `n - 2`
triangles for an `n`-corner polygon, one triangle equal to the corners in
order for `n = 3`, and each further corner `c` adds the triangle
`(first, previous, c)`. -/
theorem triangulate_fan_spec (polys : List (List Int))
    (h1 : ∀ p ∈ polys, p ≠ [])
    (h2 : ∀ p ∈ polys, ∀ c ∈ p, 0 ≤ c) :
    (triangulate (encodeStream polys)).indices = (polys.map polyFlat).flatten ∧
    (triangulate (encodeStream polys)).to_old = streamPositions 0 polys ∧
    (∀ k, k < (triangulate (encodeStream polys)).indices.length →
        (triangulate (encodeStream polys)).indices.getD k 0
          = getIdx ((encodeStream polys).getD
              ((triangulate (encodeStream polys)).to_old.getD k 0) 0)) ∧
    (∀ p : List Int, 3 ≤ p.length → (polyFlat p).length = 3 * (p.length - 2)) ∧
    (∀ a b c : Int, polyFlat [a, b, c] = [a, b, c]) ∧
    (∀ (c0 c1 c2 : Int) (rest : List Int),
        polyFlat (c0 :: c1 :: c2 :: rest) = c0 :: c1 :: c2 :: fanFlat c0 c2 rest) ∧
    (∀ (c0 prev c : Int) (rest : List Int),
        fanFlat c0 prev (c :: rest) = c0 :: prev :: c :: fanFlat c0 c rest) := by
  have hrun := run_stream polys
    { old := encodeStream polys, indices := [], to_old := [], in_poly := 0 } 0 rfl h1 h2
    (fun j hj => by simp) (by simp)
  obtain ⟨hi1, hi2, hi3, hi4, hi5, hi6⟩ := hrun
  have hInd : (triangulate (encodeStream polys)).indices = (polys.map polyFlat).flatten := by
    unfold triangulate
    rw [List.range_eq_range']
    simpa using hi1
  have hTo : (triangulate (encodeStream polys)).to_old = streamPositions 0 polys := by
    unfold triangulate
    rw [List.range_eq_range']
    simpa using hi2
  refine ⟨hInd, hTo, ?_, ?_, ?_, ?_, ?_⟩
  · -- pairing with original stream positions
    intro k hk
    have hmap := streamPositions_decode polys h2 0 (encodeStream polys)
      (fun t ht => by simp)
    rw [hInd] at hk
    rw [hInd, hTo, hmap]
    have hkm : k < ((streamPositions 0 polys).map
        (fun pos => getIdx ((encodeStream polys).getD pos 0))).length := by
      rw [← hmap]; exact hk
    have hkl : k < (streamPositions 0 polys).length := by simpa using hkm
    rw [List.getD_eq_getElem _ _ hkm, List.getD_eq_getElem _ _ hkl]
    rw [List.getElem_map]
  · exact fun p hp => polyFlat_length_of_three_le p hp
  · intro a b c; rfl
  · intro c0 c1 c2 rest; rfl
  · intro c0 prev c rest; rfl

/-- Witness for C3 at a single pentagon. -/
theorem triangulate_fan_spec_witness :
    (triangulate (encodeStream [[0, 1, 2, 3, 4]])).indices = [0, 1, 2, 0, 2, 3, 0, 3, 4] ∧
    (triangulate (encodeStream [[0, 1, 2, 3, 4]])).to_old = [0, 1, 2, 0, 2, 3, 0, 3, 4] := by
  have h := triangulate_fan_spec [[0, 1, 2, 3, 4]]
    (by intro p hp; simp at hp; subst hp; simp)
    (by intro p hp c hc; simp at hp; subst hp; simp at hc; omega)
  exact ⟨h.1.trans (by decide), h.2.1.trans (by decide)⟩

/-- C4: the stream `[2, 5, -4]` decodes to corners `[2, 5, 3]` (one triangle,
with the polygon boundary detected exactly at stream position 2, so a
following entry starts a new polygon), and `triangulate` rewrites every
negative entry in place with its decoded value: afterwards the stream equals
`map getIdx` of the input, hence contains no negative entries. -/
theorem triangulate_sign_decoding :
    (triangulate [2, 5, -4]).indices = [2, 5, 3] ∧
    (triangulate [2, 5, -4]).old = [2, 5, 3] ∧
    (triangulate [2, 5, -4]).to_old = [0, 1, 2] ∧
    (triangulate [2, 5, -4]).in_poly = 0 ∧
    (triangulate [2, 5, -4, 7, 8, -10]).indices = [2, 5, 3, 7, 8, 9] ∧
    (∀ l : List Int, (triangulate l).old = l.map getIdx) ∧
    (∀ l : List Int, ∀ e ∈ (triangulate l).old, 0 ≤ e) := by
  refine ⟨by decide, by decide, by decide, by decide, by decide, triangulate_old_decoded, ?_⟩
  intro l e he
  rw [triangulate_old_decoded] at he
  obtain ⟨x, hx, rfl⟩ := List.mem_map.mp he
  exact getIdx_nonneg x

/-! ## Vertex expansion engine (`VertexData` / `expand`, ofbxImp.cpp lines 42-115) -/

def EXCLUDE_VERTEX : Nat := 1
def EXCLUDE_NORMAL : Nat := 2
def EXCLUDE_TANGENT : Nat := 4
def EXCLUDE_COLOR : Nat := 8
def EXCLUDE_UV : Nat := 16

/-- The five per-attribute index arrays of `GeometryImpl` that the
`VertexData` constructor reads. -/
structure GeomIndices where
  vertex_indices : List Int
  normal_indices : List Int
  tangent_indices : List Int
  color_indices : List Int
  uv_indices : List Int
deriving DecidableEq

/-- The cross-attribute signature of one loop position (`class VertexData`). -/
structure VertexData where
  pos : Int
  nrm : Int
  tan : Int
  clr : Int
  uv : Int
deriving DecidableEq

/-- The `VertexData(const GeometryImpl&, size_t, int)` constructor: each field
is `-1` when its index array is empty or its bit is masked out, otherwise the
index array entry at `index`. -/
def mkVertexData (geom : GeomIndices) (index : Nat) (mask : Nat) : VertexData where
  pos := if geom.vertex_indices = [] ∨ mask &&& EXCLUDE_VERTEX ≠ 0 then -1
    else geom.vertex_indices.getD index 0
  nrm := if geom.normal_indices = [] ∨ mask &&& EXCLUDE_NORMAL ≠ 0 then -1
    else geom.normal_indices.getD index 0
  tan := if geom.tangent_indices = [] ∨ mask &&& EXCLUDE_TANGENT ≠ 0 then -1
    else geom.tangent_indices.getD index 0
  clr := if geom.color_indices = [] ∨ mask &&& EXCLUDE_COLOR ≠ 0 then -1
    else geom.color_indices.getD index 0
  uv := if geom.uv_indices = [] ∨ mask &&& EXCLUDE_UV ≠ 0 then -1
    else geom.uv_indices.getD index 0

/-- Association-list lookup standing for the `unordered_map::find` calls
(all insertions in `expand` are to keys not currently present). -/
def findSig (key : Int) : List (Int × VertexData) → Option VertexData
  | [] => none
  | q :: rest => if q.1 = key then some q.2 else findSig key rest

/-- State of the `expand` loop: the growing attribute buffer, the index array
being rewritten, and the signature map. -/
structure ExpState (α : Type) where
  data : List α
  indices : List Int
  sigs : List (Int × VertexData)

/-- One iteration of the `expand` loop at loop position `i`: record an unseen
index, keep a matching signature, or split (duplicate the referenced entry at
the end of the buffer and redirect this position to the new slot). -/
def expandStep {α : Type} [Inhabited α] (geom : GeomIndices) (mask : Nat)
    (st : ExpState α) (i : Nat) : ExpState α :=
  let idx := st.indices.getD i 0
  let vtx := mkVertexData geom i mask
  match findSig idx st.sigs with
  | none => { st with sigs := (idx, vtx) :: st.sigs }
  | some v =>
    if v ≠ vtx then
      { data := st.data ++ [st.data.getD idx.toNat default],
        indices := st.indices.set i ((st.data.length : Int)),
        sigs := ((st.data.length : Int), vtx) :: st.sigs }
    else st

/-- The `expand` template (ofbxImp.cpp lines 88-115): seed the map with loop
position 0, then run the loop for positions `1 .. count - 1`; returns the
grown data buffer and the rewritten index array. -/
def expand {α : Type} [Inhabited α] (data : List α) (indices : List Int)
    (geom : GeomIndices) (mask : Nat) : List α × List Int :=
  let st0 : ExpState α :=
    { data := data, indices := indices,
      sigs := [(indices.getD 0 0, mkVertexData geom 0 mask)] }
  let r := (List.range' 1 (indices.length - 1)).foldl (expandStep geom mask) st0
  (r.data, r.indices)

/-- `remapForRendering` (ofbxImp.cpp lines 117-129): a no-op on an empty
buffer; otherwise every loop position writes the old entry selected by its
attribute index into the slot selected by its (position) mapping index. -/
def remapForRendering {α : Type} [Inhabited α] (out : List α)
    (indices mapping : List Int) : List α :=
  if out.isEmpty then out
  else (List.range indices.length).foldl
    (fun acc i => acc.set (mapping.getD i 0).toNat (out.getD (indices.getD i 0).toNat default))
    out

/-! ### Lookup lemmas -/

theorem findSig_cons_eq (key : Int) (v : VertexData) (rest : List (Int × VertexData)) :
    findSig key ((key, v) :: rest) = some v := by
  simp [findSig]

theorem findSig_cons_ne (key k2 : Int) (v : VertexData) (rest : List (Int × VertexData))
    (h : k2 ≠ key) : findSig key ((k2, v) :: rest) = findSig key rest := by
  simp [findSig, h]

theorem getD_mem {α : Type} (l : List α) (j : Nat) (d : α) (h : j < l.length) :
    l.getD j d ∈ l := by
  rw [List.getD_eq_getElem _ _ h]
  exact List.getElem_mem h

theorem getD_append_last {α : Type} (l : List α) (x d : α) :
    (l ++ [x]).getD l.length d = x := by
  rw [List.getD_append_right _ _ _ _ (le_refl _)]
  simp

/-! ### Invariants of the expansion loop -/

/-- Frame invariant of the `expand` loop, holding with no precondition: the
buffer only grows and keeps its front; unprocessed index entries and entry 0
are untouched; every recorded signature belongs to an earlier loop position;
a rewritten entry witnesses a signature conflict with an earlier position. -/
structure ExpFrame {α : Type} [Inhabited α] (geom : GeomIndices) (mask : Nat)
    (data0 : List α) (indices0 : List Int) (i : Nat) (st : ExpState α) : Prop where
  len_ind : st.indices.length = indices0.length
  len_data : data0.length ≤ st.data.length
  data_front : ∀ j, j < data0.length → st.data.getD j default = data0.getD j default
  untouched : ∀ j, i ≤ j → st.indices.getD j 0 = indices0.getD j 0
  head_keep : st.indices.getD 0 0 = indices0.getD 0 0
  sig_of : ∀ q ∈ st.sigs, ∃ j, j < i ∧ q.2 = mkVertexData geom j mask
  mod_split : ∀ j, st.indices.getD j 0 ≠ indices0.getD j 0 →
      ∃ j2, j2 < j ∧ mkVertexData geom j2 mask ≠ mkVertexData geom j mask

/-- Full invariant of the `expand` loop under the precondition that the
initial index array is in range of the initial buffer. -/
structure ExpInv {α : Type} [Inhabited α] (geom : GeomIndices) (mask : Nat)
    (data0 : List α) (indices0 : List Int) (i : Nat) (st : ExpState α) : Prop where
  frame : ExpFrame geom mask data0 indices0 i st
  data_new : ∀ j, data0.length ≤ j → j < st.data.length → st.data.getD j default ∈ data0
  in_range : ∀ j, j < indices0.length →
      0 ≤ st.indices.getD j 0 ∧ (st.indices.getD j 0).toNat < st.data.length
  key_range : ∀ q ∈ st.sigs, 0 ≤ q.1 ∧ q.1.toNat < st.data.length
  lookup_proc : ∀ j, j < i →
      findSig (st.indices.getD j 0) st.sigs = some (mkVertexData geom j mask)

theorem findSig_mem (key : Int) (v : VertexData) : ∀ (l : List (Int × VertexData)),
    findSig key l = some v → (key, v) ∈ l := by
  intro l
  induction l with
  | nil => intro h; simp [findSig] at h
  | cons q rest ih =>
    intro h
    by_cases hq : q.1 = key
    · rw [findSig, if_pos hq] at h
      have hv : q.2 = v := by simpa using h
      rw [← hq, ← hv]
      simp
    · rw [findSig, if_neg hq] at h
      exact List.mem_cons_of_mem _ (ih h)

/-- Unfolding of `expandStep` when the index is unseen. -/
theorem expandStep_none {α : Type} [Inhabited α] (geom : GeomIndices) (mask : Nat)
    (st : ExpState α) (i : Nat)
    (h : findSig (st.indices.getD i 0) st.sigs = none) :
    expandStep geom mask st i
      = { st with sigs := (st.indices.getD i 0, mkVertexData geom i mask) :: st.sigs } := by
  simp only [expandStep, h]

/-- Unfolding of `expandStep` when the found signature matches. -/
theorem expandStep_keep {α : Type} [Inhabited α] (geom : GeomIndices) (mask : Nat)
    (st : ExpState α) (i : Nat) (v : VertexData)
    (h : findSig (st.indices.getD i 0) st.sigs = some v)
    (heq : v = mkVertexData geom i mask) :
    expandStep geom mask st i = st := by
  simp only [expandStep, h]
  rw [if_neg (by simpa using heq)]

/-- Unfolding of `expandStep` at a signature conflict (vertex split). -/
theorem expandStep_conflict {α : Type} [Inhabited α] (geom : GeomIndices) (mask : Nat)
    (st : ExpState α) (i : Nat) (v : VertexData)
    (h : findSig (st.indices.getD i 0) st.sigs = some v)
    (hne : v ≠ mkVertexData geom i mask) :
    expandStep geom mask st i
      = { data := st.data ++ [st.data.getD (st.indices.getD i 0).toNat default],
          indices := st.indices.set i ((st.data.length : Int)),
          sigs := ((st.data.length : Int), mkVertexData geom i mask) :: st.sigs } := by
  simp only [expandStep, h]
  rw [if_pos hne]

theorem expandStep_frame {α : Type} [Inhabited α] (geom : GeomIndices) (mask : Nat)
    (data0 : List α) (indices0 : List Int) (i : Nat) (st : ExpState α)
    (hi1 : 1 ≤ i) (h : ExpFrame geom mask data0 indices0 i st) :
    ExpFrame geom mask data0 indices0 (i + 1) (expandStep geom mask st i) := by
  obtain ⟨len_ind, len_data, data_front, untouched, head_keep, sig_of, mod_split⟩ := h
  cases hfind : findSig (st.indices.getD i 0) st.sigs with
  | none =>
    rw [expandStep_none geom mask st i hfind]
    refine ⟨len_ind, len_data, data_front, fun j hj => untouched j (by omega), head_keep, ?_,
      mod_split⟩
    intro q hq
    rcases List.mem_cons.mp hq with hq | hq
    · exact ⟨i, by omega, by rw [hq]⟩
    · obtain ⟨j, hj1, hj2⟩ := sig_of q hq
      exact ⟨j, by omega, hj2⟩
  | some v =>
    by_cases heq : v = mkVertexData geom i mask
    · rw [expandStep_keep geom mask st i v hfind heq]
      refine ⟨len_ind, len_data, data_front, fun j hj => untouched j (by omega), head_keep, ?_,
        mod_split⟩
      intro q hq
      obtain ⟨j, hj1, hj2⟩ := sig_of q hq
      exact ⟨j, by omega, hj2⟩
    · rw [expandStep_conflict geom mask st i v hfind heq]
      refine ⟨by simpa using len_ind,
        by simp only [List.length_append, List.length_cons, List.length_nil]; omega, ?_, ?_, ?_, ?_, ?_⟩
      · intro j hj
        rw [List.getD_append _ _ _ j (by omega)]
        exact data_front j hj
      · intro j hj
        rw [getD_set_ne _ _ _ (by omega)]
        exact untouched j (by omega)
      · rw [getD_set_ne _ _ _ (by omega)]
        exact head_keep
      · intro q hq
        rcases List.mem_cons.mp hq with hq | hq
        · exact ⟨i, by omega, by rw [hq]⟩
        · obtain ⟨j, hj1, hj2⟩ := sig_of q hq
          exact ⟨j, by omega, hj2⟩
      · intro j hj
        by_cases hji : j = i
        · subst hji
          obtain ⟨j2, hj2i, hj2sig⟩ := sig_of (st.indices.getD j 0, v) (findSig_mem _ _ _ hfind)
          refine ⟨j2, hj2i, ?_⟩
          simp only at hj2sig
          rw [← hj2sig]
          exact heq
        · rw [getD_set_ne _ _ _ (Ne.symm hji)] at hj
          exact mod_split j hj

theorem expandStep_inv {α : Type} [Inhabited α] (geom : GeomIndices) (mask : Nat)
    (data0 : List α) (indices0 : List Int) (i : Nat) (st : ExpState α)
    (hi1 : 1 ≤ i) (hi2 : i < indices0.length)
    (h : ExpInv geom mask data0 indices0 i st) :
    ExpInv geom mask data0 indices0 (i + 1) (expandStep geom mask st i) := by
  obtain ⟨hframe, data_new, in_range, key_range, lookup_proc⟩ := h
  have hframe2 := expandStep_frame geom mask data0 indices0 i st hi1 hframe
  cases hfind : findSig (st.indices.getD i 0) st.sigs with
  | none =>
    rw [expandStep_none geom mask st i hfind] at hframe2 ⊢
    refine ⟨hframe2, data_new, in_range, ?_, ?_⟩
    · intro q hq
      rcases List.mem_cons.mp hq with hq | hq
      · rw [hq]
        exact in_range i hi2
      · exact key_range q hq
    · intro j hj
      rcases Nat.lt_or_ge j i with hji | hji
      · have hne : st.indices.getD j 0 ≠ st.indices.getD i 0 := by
          intro hcon
          have hlp := lookup_proc j hji
          rw [hcon, hfind] at hlp
          exact Option.noConfusion hlp
        rw [findSig_cons_ne _ _ _ _ (Ne.symm hne)]
        exact lookup_proc j hji
      · have hje : j = i := by omega
        subst hje
        exact findSig_cons_eq _ _ _
  | some v =>
    by_cases heq : v = mkVertexData geom i mask
    · rw [expandStep_keep geom mask st i v hfind heq] at hframe2 ⊢
      refine ⟨hframe2, data_new, in_range, key_range, ?_⟩
      intro j hj
      rcases Nat.lt_or_ge j i with hji | hji
      · exact lookup_proc j hji
      · have hje : j = i := by omega
        subst hje
        rw [hfind, heq]
    · rw [expandStep_conflict geom mask st i v hfind heq] at hframe2 ⊢
      have hnewlen : (st.data ++ [st.data.getD (st.indices.getD i 0).toNat default]).length
          = st.data.length + 1 := by simp
      refine ⟨hframe2, ?_, ?_, ?_, ?_⟩
      · -- new entries are duplicates of entries of the original buffer
        intro j hj1 hj2
        rw [hnewlen] at hj2
        rcases Nat.lt_or_ge j st.data.length with hjl | hjl
        · rw [List.getD_append _ _ _ j hjl]
          exact data_new j hj1 hjl
        · have hje : j = st.data.length := by omega
          subst hje
          rw [getD_append_last]
          obtain ⟨hnn, hlt⟩ := in_range i hi2
          rcases Nat.lt_or_ge (st.indices.getD i 0).toNat data0.length with hl | hl
          · rw [hframe.data_front _ hl]
            exact getD_mem _ _ _ hl
          · exact data_new _ hl hlt
      · -- all index entries stay in range of the grown buffer
        intro j hj
        rw [hnewlen]
        by_cases hji : j = i
        · subst hji
          rw [getD_set_self _ _ _ _ (by rw [hframe.len_ind]; omega)]
          constructor
          · exact Int.natCast_nonneg _
          · omega
        · rw [getD_set_ne _ _ _ (Ne.symm hji)]
          obtain ⟨h1', h2'⟩ := in_range j hj
          exact ⟨h1', by omega⟩
      · -- map keys stay in range of the grown buffer
        intro q hq
        rw [hnewlen]
        rcases List.mem_cons.mp hq with hq | hq
        · rw [hq]
          refine ⟨Int.natCast_nonneg _, ?_⟩
          simp
        · obtain ⟨h1', h2'⟩ := key_range q hq
          exact ⟨h1', by omega⟩
      · -- every processed position still resolves to its own signature
        intro j hj
        rcases Nat.lt_or_ge j i with hji | hji
        · rw [getD_set_ne _ _ _ (by omega)]
          have hlt : st.indices.getD j 0 < (st.data.length : Int) := by
            obtain ⟨h1', h2'⟩ := in_range j (by omega)
            omega
          rw [findSig_cons_ne _ _ _ _ (by omega)]
          exact lookup_proc j hji
        · have hje : j = i := by omega
          subst hje
          rw [getD_set_self _ _ _ _ (by rw [hframe.len_ind]; omega)]
          exact findSig_cons_eq _ _ _

/-- `expand` written as the fold it is defined to be. -/
theorem expand_eq {α : Type} [Inhabited α] (data : List α) (indices : List Int)
    (geom : GeomIndices) (mask : Nat) :
    expand data indices geom mask
      = (((List.range' 1 (indices.length - 1)).foldl (expandStep geom mask)
          { data := data, indices := indices,
            sigs := [(indices.getD 0 0, mkVertexData geom 0 mask)] }).data,
         ((List.range' 1 (indices.length - 1)).foldl (expandStep geom mask)
          { data := data, indices := indices,
            sigs := [(indices.getD 0 0, mkVertexData geom 0 mask)] }).indices) := rfl

theorem expand_frame_run {α : Type} [Inhabited α] (data : List α) (indices : List Int)
    (geom : GeomIndices) (mask : Nat) (hlen : 1 ≤ indices.length) :
    ExpFrame geom mask data indices indices.length
      ((List.range' 1 (indices.length - 1)).foldl (expandStep geom mask)
        { data := data, indices := indices,
          sigs := [(indices.getD 0 0, mkVertexData geom 0 mask)] }) := by
  have h0 : ExpFrame geom mask data indices 1
      { data := data, indices := indices,
        sigs := [(indices.getD 0 0, mkVertexData geom 0 mask)] } := by
    refine ⟨rfl, le_refl _, fun j hj => rfl, fun j hj => rfl, rfl, ?_, fun j hj => absurd rfl hj⟩
    intro q hq
    rcases List.mem_cons.mp hq with hq | hq
    · exact ⟨0, by omega, by rw [hq]⟩
    · simp at hq
  have hrun := foldl_inv (expandStep geom mask) (ExpFrame geom mask data indices)
    (indices.length - 1) 1 _ h0
    (fun i st2 hi1 hi2 hp => expandStep_frame geom mask data indices i st2 hi1 hp)
  have harr : 1 + (indices.length - 1) = indices.length := by omega
  rwa [harr] at hrun

theorem expand_inv_run {α : Type} [Inhabited α] (data : List α) (indices : List Int)
    (geom : GeomIndices) (mask : Nat) (hlen : 1 ≤ indices.length)
    (hpre : ∀ i, i < indices.length →
        0 ≤ indices.getD i 0 ∧ (indices.getD i 0).toNat < data.length) :
    ExpInv geom mask data indices indices.length
      ((List.range' 1 (indices.length - 1)).foldl (expandStep geom mask)
        { data := data, indices := indices,
          sigs := [(indices.getD 0 0, mkVertexData geom 0 mask)] }) := by
  have h0 : ExpInv geom mask data indices 1
      { data := data, indices := indices,
        sigs := [(indices.getD 0 0, mkVertexData geom 0 mask)] } := by
    refine ⟨?_, by intro j hj1 hj2; simp only at hj2; omega, hpre, ?_, ?_⟩
    · refine ⟨rfl, le_refl _, fun j hj => rfl, fun j hj => rfl, rfl, ?_, fun j hj => absurd rfl hj⟩
      intro q hq
      rcases List.mem_cons.mp hq with hq | hq
      · exact ⟨0, by omega, by rw [hq]⟩
      · simp at hq
    · intro q hq
      rcases List.mem_cons.mp hq with hq | hq
      · rw [hq]
        exact hpre 0 (by omega)
      · simp at hq
    · intro j hj
      have hje : j = 0 := by omega
      subst hje
      exact findSig_cons_eq _ _ _
  have hrun := foldl_inv (expandStep geom mask) (ExpInv geom mask data indices)
    (indices.length - 1) 1 _ h0
    (fun i st2 hi1 hi2 hp => expandStep_inv geom mask data indices i st2 hi1 (by omega) hp)
  have harr : 1 + (indices.length - 1) = indices.length := by omega
  rwa [harr] at hrun

/-! ## Claims C2 and C10 -/

/-- C2 counterexample: `expand` does not validate the incoming index values,
so an index array whose entry points past the end of the data buffer is
returned unchanged and still out of range: for `data = [0]`, `indices = [5]`
the final index 5 is not a valid position of the (unchanged, length 1)
buffer, refuting the claim for arbitrary inputs. -/
theorem expand_out_of_range_counterexample :
    (expand ([0] : List Nat) [5] ⟨[], [], [], [], []⟩ 0).2 = [5] ∧
    (expand ([0] : List Nat) [5] ⟨[], [], [], [], []⟩ 0).1 = [0] ∧
    ¬ (((expand ([0] : List Nat) [5] ⟨[], [], [], [], []⟩ 0).2.getD 0 0).toNat
        < (expand ([0] : List Nat) [5] ⟨[], [], [], [], []⟩ 0).1.length) := by
  refine ⟨rfl, rfl, by decide⟩

/-- C2 (amended with the precondition that every incoming index is in range
of the incoming data buffer, which holds for every index array the program
feeds to `expand` on well-formed files): upon return no two loop positions
that reference the same final index value disagree on any non-excluded field
of their vertex signature, and every final index is in range of the possibly
grown data buffer. -/
theorem expand_consistency {α : Type} [Inhabited α] (data : List α) (indices : List Int)
    (geom : GeomIndices) (mask : Nat)
    (hpre : ∀ i, i < indices.length →
        0 ≤ indices.getD i 0 ∧ (indices.getD i 0).toNat < data.length) :
    (∀ i j, i < indices.length → j < indices.length →
        (expand data indices geom mask).2.getD i 0 = (expand data indices geom mask).2.getD j 0 →
        mkVertexData geom i mask = mkVertexData geom j mask) ∧
    (∀ i, i < indices.length →
        0 ≤ (expand data indices geom mask).2.getD i 0 ∧
        ((expand data indices geom mask).2.getD i 0).toNat
          < (expand data indices geom mask).1.length) ∧
    (expand data indices geom mask).2.length = indices.length := by
  rcases Nat.eq_zero_or_pos indices.length with h0 | hlen
  · have hnil : indices = [] := List.eq_nil_of_length_eq_zero h0
    subst hnil
    exact ⟨fun i j hi => absurd hi (by simp), fun i hi => absurd hi (by simp), rfl⟩
  · have hinv := expand_inv_run data indices geom mask hlen hpre
    rw [expand_eq]
    refine ⟨?_, ?_, hinv.frame.len_ind⟩
    · intro i j hi hj hsame
      have hli := hinv.lookup_proc i (by omega)
      have hlj := hinv.lookup_proc j (by omega)
      rw [hsame, hlj] at hli
      exact (Option.some.injEq _ _ ▸ hli).symm
    · intro i hi
      exact hinv.in_range i hi

/-- Witness for the amended C2 at a concrete split-inducing input. -/
theorem expand_consistency_witness :
    0 ≤ (expand ([10, 20] : List Nat) [0, 1, 0] ⟨[0, 1, 0], [0, 1, 2], [], [], []⟩ 1).2.getD 2 0 ∧
    ((expand ([10, 20] : List Nat) [0, 1, 0] ⟨[0, 1, 0], [0, 1, 2], [], [], []⟩ 1).2.getD 2 0).toNat
      < (expand ([10, 20] : List Nat) [0, 1, 0] ⟨[0, 1, 0], [0, 1, 2], [], [], []⟩ 1).1.length ∧
    (expand ([10, 20] : List Nat) [0, 1, 0] ⟨[0, 1, 0], [0, 1, 2], [], [], []⟩ 1).2.length = 3 := by
  have h := expand_consistency ([10, 20] : List Nat) [0, 1, 0]
    ⟨[0, 1, 0], [0, 1, 2], [], [], []⟩ 1 (by decide)
  exact ⟨(h.2.1 2 (by decide)).1, (h.2.1 2 (by decide)).2, h.2.2.trans (by decide)⟩

/-- C10: `expand` only appends to the attribute buffer (all entries that
existed before keep their values, the length never decreases, and — when the
incoming indices are in range, i.e. when the C++ read `data[idx]` is defined —
every new entry duplicates an entry of the original buffer); the index array
keeps its length, entry 0 is never modified, and an entry is modified only at
a loop position whose signature conflicts with an earlier loop position. -/
theorem expand_frame_spec {α : Type} [Inhabited α] (data : List α) (indices : List Int)
    (geom : GeomIndices) (mask : Nat) :
    (∀ j, j < data.length →
        (expand data indices geom mask).1.getD j default = data.getD j default) ∧
    data.length ≤ (expand data indices geom mask).1.length ∧
    ((∀ i, i < indices.length →
        0 ≤ indices.getD i 0 ∧ (indices.getD i 0).toNat < data.length) →
      ∀ j, data.length ≤ j → j < (expand data indices geom mask).1.length →
        (expand data indices geom mask).1.getD j default ∈ data) ∧
    (expand data indices geom mask).2.length = indices.length ∧
    (expand data indices geom mask).2.getD 0 0 = indices.getD 0 0 ∧
    (∀ i, (expand data indices geom mask).2.getD i 0 ≠ indices.getD i 0 →
        ∃ j, j < i ∧ mkVertexData geom j mask ≠ mkVertexData geom i mask) := by
  rcases Nat.eq_zero_or_pos indices.length with h0 | hlen
  · have hnil : indices = [] := List.eq_nil_of_length_eq_zero h0
    subst hnil
    refine ⟨fun j hj => rfl, le_refl _, ?_, rfl, rfl, fun i hi => absurd rfl hi⟩
    intro _ j hj1 hj2
    have hsame : (expand data ([] : List Int) geom mask).1 = data := rfl
    rw [hsame] at hj2
    omega
  · have hframe := expand_frame_run data indices geom mask hlen
    rw [expand_eq]
    refine ⟨hframe.data_front, hframe.len_data, ?_, hframe.len_ind, hframe.head_keep,
      hframe.mod_split⟩
    intro hpre
    exact (expand_inv_run data indices geom mask hlen hpre).data_new

/-- Witness for C10 at a concrete split-inducing input. -/
theorem expand_frame_spec_witness :
    (expand ([10, 20] : List Nat) [0, 1, 0] ⟨[0, 1, 0], [0, 1, 2], [], [], []⟩ 1).2.getD 0 0 = 0 ∧
    (2 : Nat) ≤ (expand ([10, 20] : List Nat) [0, 1, 0] ⟨[0, 1, 0], [0, 1, 2], [], [], []⟩ 1).1.length ∧
    (expand ([10, 20] : List Nat) [0, 1, 0] ⟨[0, 1, 0], [0, 1, 2], [], [], []⟩ 1).1.getD 0 default = 10 ∧
    (expand ([10, 20] : List Nat) [0, 1, 0] ⟨[0, 1, 0], [0, 1, 2], [], [], []⟩ 1).1.getD 2 default
      ∈ ([10, 20] : List Nat) := by
  have h := expand_frame_spec ([10, 20] : List Nat) [0, 1, 0]
    ⟨[0, 1, 0], [0, 1, 2], [], [], []⟩ 1
  refine ⟨h.2.2.2.2.1.trans (by decide), h.2.1, (h.1 0 (by decide)).trans (by decide), ?_⟩
  exact h.2.2.1 (by decide) 2 (by decide) (by decide)

/-! ## Default index generation (`generateIndices`, ofbxImp.cpp lines 6-39) -/

inductive VertexDataMapping
  | BY_POLYGON_VERTEX
  | BY_POLYGON
  | BY_VERTEX
deriving DecidableEq

/-- `generateIndices` (the parameter name `vertiex_indices` is the source's
own spelling).  The `assert`s of the C++ (non-empty data, non-empty loop
stream, length match of an already-decoded index array, and `assert(false)`
for `BY_POLYGON`) are modelled as `none`; otherwise the resulting index
array is returned. -/
def generateIndices {α : Type} (indices : List Int) (data : List α)
    (mapping : VertexDataMapping) (vertiex_indices : List Int) : Option (List Int) :=
  if data.isEmpty then none
  else if vertiex_indices.isEmpty then none
  else if indices.isEmpty then
    match mapping with
    | .BY_POLYGON_VERTEX => some ((List.range vertiex_indices.length).map fun i => (i : Int))
    | .BY_VERTEX => some vertiex_indices
    | .BY_POLYGON => none
  else if indices.length = vertiex_indices.length then some indices
  else none

/-! ## Claims C5 and C9 -/

/-- C5: with an empty decoded index array, `generateIndices` produces the
identity sequence `0..N-1` over the loop-vertex count for
`BY_POLYGON_VERTEX`, an exact copy of the geometry's per-loop-vertex index
array for `BY_VERTEX`, and fails (`assert(false)`, modelled `none`) for
`BY_POLYGON`. -/
theorem generateIndices_defaults {α : Type} (data : List α) (vertiex_indices : List Int)
    (hd : data ≠ []) (hv : vertiex_indices ≠ []) :
    generateIndices [] data VertexDataMapping.BY_POLYGON_VERTEX vertiex_indices
      = some ((List.range vertiex_indices.length).map fun i => (i : Int)) ∧
    generateIndices [] data VertexDataMapping.BY_VERTEX vertiex_indices
      = some vertiex_indices ∧
    generateIndices [] data VertexDataMapping.BY_POLYGON vertiex_indices = none := by
  have hd2 : data.isEmpty = false := by
    cases data with
    | nil => exact absurd rfl hd
    | cons a l => rfl
  have hv2 : vertiex_indices.isEmpty = false := by
    cases vertiex_indices with
    | nil => exact absurd rfl hv
    | cons a l => rfl
  refine ⟨?_, ?_, ?_⟩ <;> simp [generateIndices, hd2, hv2]

/-- Witness for C5. -/
theorem generateIndices_defaults_witness :
    generateIndices [] [3] VertexDataMapping.BY_POLYGON_VERTEX [9, 8] = some [0, 1] ∧
    generateIndices [] [3] VertexDataMapping.BY_VERTEX [9, 8] = some [9, 8] ∧
    generateIndices [] ([3] : List Nat) VertexDataMapping.BY_POLYGON [9, 8] = none := by
  have h := generateIndices_defaults ([3] : List Nat) [9, 8] (by decide) (by decide)
  exact ⟨h.1.trans (by decide), h.2.1, h.2.2⟩

/-- C9: a non-empty decoded index array whose length differs from the
loop-vertex count is a flagged fault (`assert`, modelled `none`): the layer
is not carried forward with a mismatched index array. -/
theorem generateIndices_mismatch {α : Type} (indices : List Int) (data : List α)
    (mapping : VertexDataMapping) (vertiex_indices : List Int)
    (hne : indices ≠ [])
    (hmis : indices.length ≠ vertiex_indices.length) :
    generateIndices indices data mapping vertiex_indices = none := by
  have hne2 : indices.isEmpty = false := by
    cases indices with
    | nil => exact absurd rfl hne
    | cons a l => rfl
  unfold generateIndices
  simp [hne2, hmis]

/-- Witness for C9. -/
theorem generateIndices_mismatch_witness :
    generateIndices [7] ([1, 2] : List Nat) VertexDataMapping.BY_VERTEX [0, 0, 0] = none :=
  generateIndices_mismatch [7] [1, 2] VertexDataMapping.BY_VERTEX [0, 0, 0]
    (by decide) (by decide)

/-! ## Typed binary array decoder
(`parseBinaryArrayRaw` / `parseBinaryArray`, ofbxImp.h lines 323-385) -/

/-- A binary array property: the one-character type tag and the byte window
`[count : u32][encoding : u32][byte_length : u32][payload]` between
`value.begin` and `value.end`, one byte per entry. -/
structure Property where
  type : Char
  value : List Nat
deriving DecidableEq

/-- Element size switch of `parseBinaryArrayRaw`: 8 for `l`/`d`, 4 for
`f`/`i`, failure otherwise. -/
def elemSizeRaw (t : Char) : Option Nat :=
  if t = 'l' then some 8
  else if t = 'd' then some 8
  else if t = 'f' then some 4
  else if t = 'i' then some 4
  else none

/-- Element size switch of `parseBinaryArray` (no `l` case). -/
def elemSizeArr (t : Char) : Option Nat :=
  if t = 'd' then some 8
  else if t = 'f' then some 4
  else if t = 'i' then some 4
  else none

/-- Little-endian unsigned 32-bit read at byte offset `off`. -/
def readU32 (bytes : List Nat) (off : Nat) : Nat :=
  bytes.getD off 0 + 256 * bytes.getD (off + 1) 0 + 65536 * bytes.getD (off + 2) 0
    + 16777216 * bytes.getD (off + 3) 0

/-- The C++ narrowing conversion of an unsigned 32-bit value to a signed
`int` (two's complement wrap). -/
def toInt32 (n : Nat) : Int :=
  if n % 4294967296 < 2147483648 then ((n % 4294967296 : Nat) : Int)
  else ((n % 4294967296 : Nat) : Int) - 4294967296

/-- Outcome of `parseBinaryArrayRaw`: failure, a verbatim copy of the raw
payload into the destination, or the call of the external `decompress`
collaborator, reified with the compressed window passed to it, its declared
length, and the destination capacity handed over (`elem_size * count` as a
32-bit value). -/
inductive RawResult
  | fail
  | copied (bytes : List Nat)
  | inflate (src : List Nat) (src_len : Nat) (out_size : Nat)
deriving DecidableEq

/-- `parseBinaryArrayRaw` with destination capacity `max_size` (the C++
`int max_size`).  The pointer check `data > end` is `value.length < 12`, the
window check `data + len > end` is `12 + len > value.length`, and the two
narrowing casts `(int)len` and `int(elem_size * count)` (32-bit
multiplication) go through `toInt32`. -/
def parseBinaryArrayRaw (p : Property) (max_size : Int) : RawResult :=
  match elemSizeRaw p.type with
  | none => .fail
  | some elem_size =>
    if p.value.length < 12 then .fail
    else
      let count := readU32 p.value 0
      let enc := readU32 p.value 4
      let len := readU32 p.value 8
      if enc = 0 then
        if toInt32 len > max_size then .fail
        else if 12 + len > p.value.length then .fail
        else .copied ((p.value.drop 12).take len)
      else if enc = 1 then
        if toInt32 (elem_size * count) > max_size then .fail
        else .inflate ((p.value.drop 12).take len) len ((elem_size * count) % 4294967296)
      else .fail

/-- Number of records `parseBinaryArray` resizes its output vector to:
`count / (sizeof(T) / elem_size)`, integer division with no divisibility
check. -/
def recordCount (p : Property) (sizeofT : Nat) : Nat :=
  match elemSizeArr p.type with
  | none => 0
  | some elem_size => readU32 p.value 0 / (sizeofT / elem_size)

/-- `parseBinaryArray`: resize the output to `recordCount` records of
`sizeofT` bytes each and decode raw into it, with destination capacity
`int(sizeof(T) * out->size())`. -/
def parseBinaryArray (p : Property) (sizeofT : Nat) : RawResult :=
  match elemSizeArr p.type with
  | none => .fail
  | some elem_size =>
    parseBinaryArrayRaw p (toInt32 (sizeofT * (readU32 p.value 0 / (sizeofT / elem_size))))

/-! ### Decoder helper lemmas -/

theorem toInt32_of_lt {n : Nat} (h : n < 2147483648) : toInt32 n = n := by
  unfold toInt32
  rw [Nat.mod_eq_of_lt (by omega)]
  rw [if_pos (by omega)]

theorem elemSize_agree {t : Char} {es : Nat} (h : elemSizeArr t = some es) :
    elemSizeRaw t = some es ∧ 1 ≤ es := by
  unfold elemSizeArr at h
  split_ifs at h with h1 h2 h3
  · cases h; subst h1; exact ⟨by decide, by decide⟩
  · cases h; subst h2; exact ⟨by decide, by decide⟩
  · cases h; subst h3; exact ⟨by decide, by decide⟩

/-- Branch-level unfolding of `parseBinaryArrayRaw` once the element size is
known. -/
theorem parseBinaryArrayRaw_unfold (p : Property) (max_size : Int) (es : Nat)
    (hes : elemSizeRaw p.type = some es) :
    parseBinaryArrayRaw p max_size =
      (if p.value.length < 12 then .fail
       else if readU32 p.value 4 = 0 then
         (if toInt32 (readU32 p.value 8) > max_size then .fail
          else if 12 + readU32 p.value 8 > p.value.length then .fail
          else .copied ((p.value.drop 12).take (readU32 p.value 8)))
       else if readU32 p.value 4 = 1 then
         (if toInt32 (es * readU32 p.value 0) > max_size then .fail
          else .inflate ((p.value.drop 12).take (readU32 p.value 8)) (readU32 p.value 8)
            ((es * readU32 p.value 0) % 4294967296))
       else .fail) := by
  simp only [parseBinaryArrayRaw, hes]

/-! ## Claims C6, C7 and C8 -/

/-- The failing input of C6: a raw (`encoding = 0`) `i`-array property whose
declared `byte_length` is `2^31` and whose window really holds that many
payload bytes. -/
def c6bytes : List Nat := [0, 0, 0, 0, 0, 0, 0, 0, 0, 0, 0, 128] ++ List.replicate 2147483648 0

/-- C6 (integer-overflow bug in the destination capacity check): for
`c6bytes` the declared `byte_length` is `2^31`, which exceeds the destination
capacity `max_size = 4`, and the source window does not extend past the
property's end — yet decoding succeeds and copies the whole `2^31`-byte
payload, because the C++ check compares `(int)len`, which wraps to
`-2^31 < 4`.  The claimed failure condition is not enforced, and the `memcpy`
overruns the 4-byte destination. -/
theorem parseBinaryArrayRaw_capacity_bug :
    readU32 c6bytes 8 = 2147483648 ∧
    (4 : Int) < (2147483648 : Int) ∧
    12 + 2147483648 ≤ c6bytes.length ∧
    parseBinaryArrayRaw ⟨'i', c6bytes⟩ 4 = RawResult.copied (List.replicate 2147483648 0) := by
  have hgd : ∀ k : Nat, k < 12 →
      c6bytes.getD k 0 = ([0, 0, 0, 0, 0, 0, 0, 0, 0, 0, 0, 128] : List Nat).getD k 0 := by
    intro k hk
    unfold c6bytes
    exact List.getD_append _ _ _ k (by simpa using hk)
  have hr4 : readU32 c6bytes 4 = 0 := by
    unfold readU32
    rw [hgd 4 (by omega), hgd 5 (by omega), hgd 6 (by omega), hgd 7 (by omega)]
    decide
  have hr8 : readU32 c6bytes 8 = 2147483648 := by
    unfold readU32
    rw [hgd 8 (by omega), hgd 9 (by omega), hgd 10 (by omega), hgd 11 (by omega)]
    decide
  have hlen : c6bytes.length = 2147483660 := by
    unfold c6bytes
    rw [List.length_append, List.length_replicate]
    decide
  have hdrop : c6bytes.drop 12 = List.replicate 2147483648 0 := by
    unfold c6bytes
    have h12 : ([0, 0, 0, 0, 0, 0, 0, 0, 0, 0, 0, 128] : List Nat).length = 12 := rfl
    rw [← h12, List.drop_left]
  have htoi : toInt32 2147483648 = -2147483648 := by decide
  refine ⟨hr8, by norm_num, by rw [hlen], ?_⟩
  rw [parseBinaryArrayRaw_unfold ⟨'i', c6bytes⟩ 4 4 (by decide)]
  rw [hlen, hr4, hr8, htoi, hdrop]
  rw [if_neg (by omega), if_pos rfl, if_neg (by omega), if_neg (by omega), List.take_replicate]
  rw [Nat.min_self]

/-- C7 (integer-overflow bug in the size contract around `decompress`): a
compressed (`encoding = 1`) `d`-array property declaring `count = 2^28 + 1`
elements has `element_size * count = 2^31 + 8`, far above the destination
capacity `max_size = 100`; the C++ guard compares
`int(elem_size * count) = -(2^31 - 8) < 100`, so instead of failing it calls
`decompress` and hands it the out-of-bounds destination capacity
`2147483656`.  The claimed guarantee (fail, and only call the inflater when
the bound holds) is not enforced. -/
theorem parseBinaryArrayRaw_inflate_bug :
    (100 : Int) < 8 * 268435457 ∧
    readU32 [1, 0, 0, 16, 1, 0, 0, 0, 0, 0, 0, 0] 0 = 268435457 ∧
    readU32 [1, 0, 0, 16, 1, 0, 0, 0, 0, 0, 0, 0] 4 = 1 ∧
    parseBinaryArrayRaw ⟨'d', [1, 0, 0, 16, 1, 0, 0, 0, 0, 0, 0, 0]⟩ 100
      = RawResult.inflate [] 0 2147483656 := by decide

/-- The counterexample input of C8: a raw `d`-array property declaring
`count = 7` scalars but a payload of only 48 bytes (6 doubles). -/
def c8bytes : List Nat := [7, 0, 0, 0, 0, 0, 0, 0, 48, 0, 0, 0] ++ List.replicate 48 9

/-- C8 counterexample: `parseBinaryArray` never checks that the declared
element count is divisible by the record width.  Converting `c8bytes` to
3-wide records of doubles (`sizeof(T) = 24`) truncates `7 / 3` to 2 records
and succeeds, because the 48 declared payload bytes fit the truncated
destination exactly. -/
theorem parseBinaryArray_truncation_counterexample :
    ¬ (3 ∣ 7) ∧
    readU32 c8bytes 0 = 7 ∧
    parseBinaryArray ⟨'d', c8bytes⟩ 24 = RawResult.copied (List.replicate 48 9) ∧
    recordCount ⟨'d', c8bytes⟩ 24 = 2 := by decide

/-- C8 (amended): the divisibility requirement is enforced only through the
capacity check, hence only for properties whose declared sizes are
consistent: if the declared element count `C` is not a multiple of the record
width `W`, `element_size * C` does not overflow a 32-bit `int`, and (for raw
encoding) the declared `byte_length` is exactly `element_size * C`, then the
conversion to records of `sizeof(T) = element_size * W` bytes fails. -/
theorem parseBinaryArray_divisibility (t : Char) (bytes : List Nat) (es W : Nat)
    (hes : elemSizeArr t = some es)
    (hW : 1 ≤ W)
    (hC : ¬ (W ∣ readU32 bytes 0))
    (hbound : es * readU32 bytes 0 < 2147483648)
    (hlen0 : readU32 bytes 4 = 0 → readU32 bytes 8 = es * readU32 bytes 0) :
    parseBinaryArray ⟨t, bytes⟩ (es * W) = RawResult.fail := by
  obtain ⟨hraw, hes1⟩ := elemSize_agree hes
  have hdivW : (es * W) / es = W := Nat.mul_div_cancel_left W (by omega)
  have hmod : readU32 bytes 0 % W ≠ 0 := fun hcon => hC (Nat.dvd_iff_mod_eq_zero.mpr hcon)
  have hdm := Nat.div_add_mod (readU32 bytes 0) W
  have hlt : W * (readU32 bytes 0 / W) < readU32 bytes 0 := by omega
  have hMlt : es * (W * (readU32 bytes 0 / W)) < es * readU32 bytes 0 :=
    mul_lt_mul_of_pos_left hlt (by omega)
  have hM : toInt32 (es * W * (readU32 bytes 0 / W))
      = ((es * W * (readU32 bytes 0 / W) : Nat) : Int) := by
    apply toInt32_of_lt
    rw [Nat.mul_assoc]
    omega
  have hEC : toInt32 (es * readU32 bytes 0) = ((es * readU32 bytes 0 : Nat) : Int) :=
    toInt32_of_lt hbound
  have hcond : ((es * W * (readU32 bytes 0 / W) : Nat) : Int)
      < ((es * readU32 bytes 0 : Nat) : Int) := by
    rw [Nat.mul_assoc]
    exact_mod_cast hMlt
  simp only [parseBinaryArray, hes]
  rw [hdivW]
  rw [parseBinaryArrayRaw_unfold ⟨t, bytes⟩ _ es hraw]
  by_cases h12 : bytes.length < 12
  · rw [if_pos h12]
  · rw [if_neg h12]
    by_cases henc0 : readU32 bytes 4 = 0
    · rw [if_pos henc0, hlen0 henc0, hEC, hM]
      rw [if_pos hcond]
    · rw [if_neg henc0]
      by_cases henc1 : readU32 bytes 4 = 1
      · rw [if_pos henc1, hEC, hM]
        rw [if_pos hcond]
      · rw [if_neg henc1]

/-- Witness for the amended C8. -/
theorem parseBinaryArray_divisibility_witness :
    parseBinaryArray ⟨'d', [7, 0, 0, 0, 0, 0, 0, 0, 56, 0, 0, 0] ++ List.replicate 56 3⟩ 24
      = RawResult.fail := by
  have h := parseBinaryArray_divisibility 'd'
    ([7, 0, 0, 0, 0, 0, 0, 0, 56, 0, 0, 0] ++ List.replicate 56 3) 8 3
    (by decide) (by decide) (by decide) (by decide) (by decide)
  exact h

/-! ## Geometry assembly (`parseGeometryForRendering`, ofbxImp.cpp lines 131-264) -/

/-- The geometry record populated by assembly.  Attribute values are opaque
`Nat` tokens: assembly only moves and duplicates them, so all lengths and all
index values are preserved faithfully by the tokenization. -/
structure Geom where
  vertices : List Nat
  normals : List Nat
  uvs : List Nat
  colors : List Nat
  tangents : List Nat
  materials : List Int
  vertex_indices : List Int
  normal_indices : List Int
  uv_indices : List Int
  color_indices : List Int
  tangent_indices : List Int
  triangles : List Int
deriving DecidableEq

/-- Modelled from the spec: `getTriCountFromPoly` is declared in `ofbxImp.h`
but its definition is not among the provided sources.  Per spec section 4.3
(companion operation) it counts the corners of the polygon starting at the
given stream offset, forward up to and including the terminal-sign entry,
and reports the triangle count `corners - 2`; the cursor advances past the
polygon.  Returns `(tri_count, new_cursor)`. -/
def getTriCountFromPoly (indices : List Int) (idx : Nat) : Nat × Nat :=
  let t := ((indices.drop idx).takeWhile (fun e : Int => decide (0 ≤ e))).length
  let corners := min (t + 1) (indices.length - idx)
  (corners - 2, idx + corners)

/-- The material expansion loop of `parseGeometryForRendering`: one id per
emitted triangle, walking the polygon stream with a cursor. -/
def expandMaterials (vertex_indices : List Int) (ids : List Int) : List Int :=
  (ids.foldl (fun (acc : List Int × Nat) mid =>
      let r := getTriCountFromPoly vertex_indices acc.2
      (acc.1 ++ List.replicate r.1 mid, r.2)) ([], 0)).1

/-- A decoded optional attribute layer as it reaches the assembly code:
absent (no layer element), invalid (`parseVertexData` failed), or decoded
data / index arrays with the layer's mapping mode. -/
inductive LayerInput
  | absent
  | invalid
  | parsed (data : List Nat) (indices : List Int) (mapping : VertexDataMapping)

/-- The decoded material layer: absent, `AllSame`,
`ByPolygon / IndexToDirect` with its per-polygon ids, or a hard failure
(missing children, unsupported mapping, decode failure). -/
inductive MaterialInput
  | absent
  | allSame
  | byPolygon (ids : List Int)
  | invalid

/-- One optional attribute layer of the assembly: the decoded layer followed
by `generateIndices` (a failed layer aborts the geometry with an error). -/
def processLayer (vertiex_indices : List Int) :
    LayerInput → Option (List Nat × List Int)
  | .absent => some ([], [])
  | .invalid => none
  | .parsed data indices mapping =>
    match generateIndices indices data mapping vertiex_indices with
    | none => none
    | some idx => some (data, idx)

/-- `parseGeometryForRendering` over already decoded arrays (the byte
decoding layer is verified separately through `parseBinaryArray`; attribute
values are opaque tokens): triangulate the polygon stream (decoding it in
place), expand the material layer to one id per triangle, generate default
indices for each present layer, expand positions, then expand and remap each
non-empty attribute in the fixed order normals, tangents, colors, UVs, and
finally rewrite the triangle list through the expanded position indices at
the back-mapped loop positions. -/
def parseGeometryForRendering (vertices : List Nat) (polygon_stream : List Int)
    (material : MaterialInput) (uv tangent color normal : LayerInput) : Option Geom := do
  let tri := triangulate polygon_stream
  let to_old_indices := tri.to_old
  let materials ← match material with
    | .absent => some []
    | .allSame => some []
    | .invalid => none
    | .byPolygon ids => some (expandMaterials tri.old ids)
  let (uvs, uv_indices) ← processLayer tri.old uv
  let (tangents, tangent_indices) ← processLayer tri.old tangent
  let (colors, color_indices) ← processLayer tri.old color
  let (normals, normal_indices) ← processLayer tri.old normal
  let g0 : GeomIndices := ⟨tri.old, normal_indices, tangent_indices, color_indices, uv_indices⟩
  let ev := expand vertices tri.old g0 EXCLUDE_VERTEX
  let g1 : GeomIndices := { g0 with vertex_indices := ev.2 }
  let rn := if normals.isEmpty then (normals, g1)
    else
      let en := expand normals g1.normal_indices g1 EXCLUDE_NORMAL
      (remapForRendering en.1 en.2 g1.vertex_indices, { g1 with normal_indices := en.2 })
  let g2 := rn.2
  let rt := if tangents.isEmpty then (tangents, g2)
    else
      let et := expand tangents g2.tangent_indices g2 EXCLUDE_TANGENT
      (remapForRendering et.1 et.2 g2.vertex_indices, { g2 with tangent_indices := et.2 })
  let g3 := rt.2
  let rc := if colors.isEmpty then (colors, g3)
    else
      let ec := expand colors g3.color_indices g3 EXCLUDE_COLOR
      (remapForRendering ec.1 ec.2 g3.vertex_indices, { g3 with color_indices := ec.2 })
  let g4 := rc.2
  let ru := if uvs.isEmpty then (uvs, g4)
    else
      let eu := expand uvs g4.uv_indices g4 EXCLUDE_UV
      (remapForRendering eu.1 eu.2 g4.vertex_indices, { g4 with uv_indices := eu.2 })
  let g5 := ru.2
  let triangles := (List.range tri.indices.length).map
    (fun i => g5.vertex_indices.getD (to_old_indices.getD i 0) 0)
  some { vertices := ev.1, normals := rn.1, uvs := ru.1, colors := rc.1, tangents := rt.1,
         materials := materials, vertex_indices := g5.vertex_indices,
         normal_indices := g5.normal_indices, uv_indices := g5.uv_indices,
         color_indices := g5.color_indices, tangent_indices := g5.tangent_indices,
         triangles := triangles }

/-! ## Claim C1 -/

/-- C1 (invariant violation on a legal input): vertices `[10, 20, 30]` with
the single polygon stream `[0, 1, -1]` (decoded corners `[0, 1, 0]`: the
third corner revisits control point 0, and control point 2 is never
referenced) and a `BY_POLYGON_VERTEX` direct normal layer of 3 per-corner
values.  Assembly succeeds: position expansion splits the revisited corner,
growing positions to 4 entries, while the normals buffer keeps its 3
entries, so a non-empty attribute array does not have the length of the
positions array (and the C++ `remapForRendering` writes `normals[3]`, one
past the end of the 3-entry buffer). -/
theorem parseGeometry_alignment_bug :
    parseGeometryForRendering [10, 20, 30] [0, 1, -1] MaterialInput.absent
      LayerInput.absent LayerInput.absent LayerInput.absent
      (LayerInput.parsed [100, 101, 102] [] VertexDataMapping.BY_POLYGON_VERTEX)
    = some { vertices := [10, 20, 30, 10], normals := [100, 101, 102], uvs := [],
             colors := [], tangents := [], materials := [],
             vertex_indices := [0, 1, 3], normal_indices := [0, 1, 2], uv_indices := [],
             color_indices := [], tangent_indices := [], triangles := [0, 1, 3] } ∧
    ([100, 101, 102] : List Nat) ≠ [] ∧
    ([100, 101, 102] : List Nat).length ≠ ([10, 20, 30, 10] : List Nat).length := by
  decide
